import Mathlib

/-!
# yuNews ticker infographic: verification of the client-side data pipeline

Shallow embedding of the data-to-graph pipeline of the yuNews dashboard:

* the edge normalizer / aggregator of the force-directed bubble graph
  component (`VideoTickerInfographicForce`): the `nodes`/`links` memo,
  `tickerStats`, the per-tick boundary `clamp`, `radius` and
  `computeVizLayout`;
* the filter pipeline of the Ticker page (`TickerPage.tsx`):
  `toUtcDayIndex`, `dateFilteredItems`, `mentionCounts`, `filteredItems`,
  `perVideoTickerStats` and `buildInfographicEdgeChips`'s `pickSentiment`.

JavaScript machine details are idealized in the usual way: numbers that the
code keeps integral are `Nat`/`Int` (with `Int.fdiv` for `Math.floor` of a
division), geometric quantities are real numbers, a possibly non-finite
JavaScript number is an `Option ℝ` (`none` = `NaN`/`±∞`/`undefined`), and
`Date.parse` — a host built-in, not repository code — is abstracted by its
result: `published_ms = none` models a missing or unparsable `published_at`,
`some ms` a successful parse to the finite epoch-millisecond value `ms`.
A JavaScript `Map` is an association list with unique keys (`mapGet`,
`mapSet`), a JavaScript `Set` of strings is an insertion-ordered duplicate
free `List String` (`setAdd`).
-/

set_option autoImplicit false

namespace Yunews

/-- One raw ticker edge of a video item, as delivered by the API:
`{ ticker, sentiment, key_points }`.  `none` models a missing (`null` /
`undefined`) field. -/
structure RawEdge where
  ticker : Option String
  sentiment : Option String
  key_points : Option (List String)
  deriving Repr, DecidableEq

/-- One raw `VideoInfographicItem`.  `video_id` is the id string, with `""`
standing for every falsy value (the code only ever tests `!v?.video_id`);
`published_ms` is the abstracted result of `Date.parse(v.published_at)`
(`none` when `published_at` is falsy or unparsable); a missing `edges` array
(`v.edges || []`) is modelled as `[]`. -/
structure RawItem where
  video_id : String
  published_ms : Option Int
  edges : List RawEdge
  deriving Repr, DecidableEq

/-! ## Association-list model of JavaScript `Map` -/

/-- `m.get(k)`, with default `d` (the code reads `m.get(k) || d`). -/
def mapGet {α : Type} (k : String) (d : α) : List (String × α) → α
  | [] => d
  | p :: m => if p.1 = k then p.2 else mapGet k d m

/-- `m.set(k, v)`: replace the binding of `k` if present, else append. -/
def mapSet {α : Type} (k : String) (v : α) : List (String × α) → List (String × α)
  | [] => [(k, v)]
  | p :: m => if p.1 = k then (k, v) :: m else p :: mapSet k v m

/-- The key list of a map (`Array.from(m.keys())`). -/
def mapKeys {α : Type} (m : List (String × α)) : List String :=
  m.map Prod.fst

/-- Sum of the values of a `Nat`-valued map (`sum(m.values())`). -/
def mapValsSum (m : List (String × Nat)) : Nat :=
  (m.map Prod.snd).sum

/-- The generic upsert loop `for x of L: m.set(key x, upd (m.get(key x) || d) x)`,
starting from map `m`. -/
def upsertFold {α β : Type} (key : β → String) (upd : α → β → α) (d : α)
    (m : List (String × α)) (L : List β) : List (String × α) :=
  L.foldl (fun m x => mapSet (key x) (upd (mapGet (key x) d m) x) m) m

/-- `s.add(x)` on an insertion-ordered duplicate-free list model of `Set`. -/
def setAdd (x : String) (s : List String) : List String :=
  if x ∈ s then s else s ++ [x]

/-! ## Models of the JavaScript string methods

`toUpperCase`, `toLowerCase` and `trim` are host built-ins; they are modelled
character-wise (the data they are applied to is ASCII ticker symbols and
sentiment words). -/

/-- `s.toUpperCase()`. -/
def jsToUpper (s : String) : String := String.mk (s.data.map Char.toUpper)

/-- `s.toLowerCase()`. -/
def jsToLower (s : String) : String := String.mk (s.data.map Char.toLower)

/-- The whitespace `trim` strips. -/
def isJsWs (c : Char) : Bool := c = ' ' || c = '\t' || c = '\n' || c = '\r'

/-- `s.trim()`. -/
def jsTrim (s : String) : String :=
  String.mk (((s.data.dropWhile isJsWs).reverse.dropWhile isJsWs).reverse)

/-! ## The infographic component (`VideoTickerInfographicForce`)

The normalizer loop (the `nodes`/`links` `useMemo`), the `tickerStats` memo,
`computeVizLayout`, `radius` and the per-tick boundary `clamp`. -/

/-- The `!e?.ticker` guard: `true` when the edge's ticker is missing or the
empty string (falsy). -/
def tickerFalsy (t : Option String) : Bool :=
  match t with
  | none => true
  | some s => decide (s = "")

/-- `String(e.ticker).toUpperCase()` (the component does not trim). -/
def symP2 (e : RawEdge) : String := jsToUpper (e.ticker.getD "")

/-- Edge weight `Math.max(1, e.key_points?.length || 0)`. -/
def edgeWeight (e : RawEdge) : Nat := max 1 (e.key_points.getD []).length

/-- `(e.sentiment || 'neutral')`: a falsy sentiment becomes `'neutral'`; the
`as EdgeSentiment` cast validates nothing, so any other raw string passes
through. -/
def sentCoerce (s : Option String) : String :=
  match s with
  | none => "neutral"
  | some s => if s = "" then "neutral" else s

/-- A derived link of the bubble graph.  `sentiment` is a raw string because
the TypeScript cast performs no validation. -/
structure Link where
  source : String
  target : String
  sentiment : String
  weight : Nat
  deriving Repr, DecidableEq

/-- The kept `(video_id, edge)` pairs of the normalizer's two nested loops, in
iteration order: items failing the `!v?.video_id` guard and edges failing the
`!e?.ticker` guard are skipped. -/
def edgePairs (items : List RawItem) : List (String × RawEdge) :=
  (items.filter (fun v => decide (v.video_id ≠ ""))).flatMap
    (fun v => (v.edges.filter (fun e => !tickerFalsy e.ticker)).map (fun e => (v.video_id, e)))

/-- The link pushed for one kept `(video_id, edge)` pair. -/
def mkLink (p : String × RawEdge) : Link :=
  { source := p.1, target := symP2 p.2, sentiment := sentCoerce p.2.sentiment,
    weight := edgeWeight p.2 }

/-- `links`: one entry per kept raw edge, in iteration order. -/
def linksOf (items : List RawItem) : List Link :=
  (edgePairs items).map mkLink

/-- `vw` for one item: the sum of the weights of its kept edges. -/
def itemVw (v : RawItem) : Nat :=
  ((v.edges.filter (fun e => !tickerFalsy e.ticker)).map edgeWeight).sum

/-- One step of the `videoMap` accumulation: `if (vw > 0) videoMap.set(v.video_id, vw)`. -/
def videoStep (m : List (String × Nat)) (v : RawItem) : List (String × Nat) :=
  if 0 < itemVw v then mapSet v.video_id (itemVw v) m else m

/-- `videoMap`: video id → weight of its video node. -/
def videoMap (items : List RawItem) : List (String × Nat) :=
  (items.filter (fun v => decide (v.video_id ≠ ""))).foldl videoStep []

/-- `tickerMap`: ticker symbol → weight of its ticker node,
`tickerMap.set(sym, (tickerMap.get(sym) || 0) + w)` per kept edge. -/
def tickerMap (items : List RawItem) : List (String × Nat) :=
  upsertFold (fun p => symP2 p.2) (fun a p => a + edgeWeight p.2) 0 [] (edgePairs items)

/-- One row of the `tickerStats` memo.  The three id lists model the
JavaScript `Set`s of video ids (`size` = `length`, insertion keeps the list
duplicate free). -/
structure TickerRow where
  mentions : Nat
  positiveVideoIds : List String
  neutralVideoIds : List String
  negativeVideoIds : List String
  deriving Repr, DecidableEq

/-- The fresh row `{mentions: 0, …empty sets}`. -/
def emptyRow : TickerRow := ⟨0, [], [], []⟩

/-- One `tickerStats` update: `row.mentions += 1` and the video id is added to
the set matching `e.sentiment === 'positive' / 'negative' / else`. -/
def rowUpdate (r : TickerRow) (p : String × RawEdge) : TickerRow :=
  let r1 : TickerRow := { r with mentions := r.mentions + 1 }
  if p.2.sentiment = some "positive" then
    { r1 with positiveVideoIds := setAdd p.1 r1.positiveVideoIds }
  else if p.2.sentiment = some "negative" then
    { r1 with negativeVideoIds := setAdd p.1 r1.negativeVideoIds }
  else
    { r1 with neutralVideoIds := setAdd p.1 r1.neutralVideoIds }

/-- The `tickerStats` map: symbol → row, accumulated over the kept pairs. -/
def tickerStatsMap (items : List RawItem) : List (String × TickerRow) :=
  upsertFold (fun p => symP2 p.2) rowUpdate emptyRow [] (edgePairs items)

/-- `overall` of a `tickerStats` row: compares the positive and negative video
`Set` sizes; a tie is `'neutral'`, else the strictly larger side wins. -/
def overall (r : TickerRow) : String :=
  if r.positiveVideoIds.length = r.negativeVideoIds.length then "neutral"
  else if r.positiveVideoIds.length > r.negativeVideoIds.length then "positive"
  else "negative"

/-- The overall sentiment the infographic colors the node of `sym` with. -/
def overallOf (items : List RawItem) (sym : String) : String :=
  overall (mapGet sym emptyRow (tickerStatsMap items))

/-! ## The Ticker page (`TickerPage.tsx`)

`toUtcDayIndex`, `dateFilteredItems`, `mentionCounts`, `filteredItems`,
`perVideoTickerStats` and the edge-chip sentiment rule. -/

/-- `toUtcDayIndex`: `null` for a falsy or unparsable `published_at`
(the `!isoLike` guard and the `Number.isFinite(Date.parse(...))` check are
folded into the `Option Int` input, see `RawItem.published_ms`), else
`Math.floor(ms / 86_400_000)`. -/
def toUtcDayIndex (ms? : Option Int) : Option Int :=
  match ms? with
  | none => none
  | some ms => some (Int.fdiv ms 86400000)

/-- `dateFilteredItems`: keep an item iff its UTC day index is inside the
normalized inclusive window `[min lo hi, max lo hi]`; items whose
`published_at` does not parse are dropped. -/
def dateFilteredItems (lo hi : Int) (rawItems : List RawItem) : List RawItem :=
  rawItems.filter (fun v =>
    match toUtcDayIndex v.published_ms with
    | none => false
    | some di => decide (min lo hi ≤ di) && decide (di ≤ max lo hi))

/-- `String(e?.ticker || '').trim().toUpperCase()`. -/
def symTP (e : RawEdge) : String := jsToUpper (jsTrim (e.ticker.getD ""))

/-- The edges `mentionCounts` iterates over: the items' edge lists flattened,
the `if (!sym) continue` guard applied. -/
def mentionEdges (dItems : List RawItem) : List RawEdge :=
  (dItems.flatMap RawItem.edges).filter (fun e => decide (symTP e ≠ ""))

/-- `mentionCounts`: ticker symbol → `m.set(sym, (m.get(sym) || 0) + 1)` per
edge of the date-filtered items. -/
def mentionCounts (dItems : List RawItem) : List (String × Nat) :=
  upsertFold symTP (fun a _ => a + 1) 0 [] (mentionEdges dItems)

/-- Membership test of the `allowedTickers` set: built from the
`mentionCounts` entries whose count lies in `[lo, hi]`. -/
def allowedTicker (lo hi : Int) (m : List (String × Nat)) (sym : String) : Bool :=
  m.any (fun p => decide (p.1 = sym) && (decide (lo ≤ (p.2 : Int)) && decide ((p.2 : Int) ≤ hi)))

/-- One item with its edge list cut down to the allowed tickers. -/
def restrictEdges (lo hi : Int) (mc : List (String × Nat)) (v : RawItem) : RawItem :=
  { v with edges := v.edges.filter (fun e => allowedTicker lo hi mc (symTP e)) }

/-- `filteredItems`: normalize the mention bounds, build the allowed-ticker
set from `mentionCounts` over the date-filtered items, cut every item's edge
list down to allowed tickers, and keep items with a non-empty remainder. -/
def filteredItems (mMin mMax : Int) (dItems : List RawItem) : List RawItem :=
  ((dItems.map (restrictEdges (min mMin mMax) (max mMin mMax) (mentionCounts dItems))).filter
    (fun v => decide (v.edges ≠ [])))

/-- One row of `perVideoTickerStats`: weight-summed tallies for one
(video, ticker) pair. -/
structure PerTickerStat where
  mentions : Nat
  positive : Nat
  negative : Nat
  neutral : Nat
  deriving Repr, DecidableEq

/-- The fresh stat `{ mentions: 0, positive: 0, negative: 0, neutral: 0 }`. -/
def emptyStat : PerTickerStat := ⟨0, 0, 0, 0⟩

/-- `String(e?.sentiment || 'neutral').trim().toLowerCase()`. -/
def sentTP (e : RawEdge) : String :=
  match e.sentiment with
  | none => "neutral"
  | some s => if s = "" then "neutral" else jsToLower (jsTrim s)

/-- One `perVideoTickerStats` update: `stat.mentions += w` and `w` is added to
the bucket selected by the normalized sentiment. -/
def statUpd (s : PerTickerStat) (e : RawEdge) : PerTickerStat :=
  let w := edgeWeight e
  let s1 : PerTickerStat := { s with mentions := s.mentions + w }
  if sentTP e = "positive" then { s1 with positive := s1.positive + w }
  else if sentTP e = "negative" then { s1 with negative := s1.negative + w }
  else { s1 with neutral := s1.neutral + w }

/-- The per-ticker stat map of one video: its edges with a non-empty
normalized symbol, upserted by symbol. -/
def perTickerOf (v : RawItem) : List (String × PerTickerStat) :=
  upsertFold symTP statUpd emptyStat [] (v.edges.filter (fun e => decide (symTP e ≠ "")))

/-- `pickSentiment` of `buildInfographicEdgeChips`: `'neutral'` for a missing
stat or a tie, else the side with the strictly higher weighted tally. -/
def pickSentiment (stat? : Option PerTickerStat) : String :=
  match stat? with
  | none => "neutral"
  | some stat =>
    if stat.positive = stat.negative then "neutral"
    else if stat.positive > stat.negative then "positive"
    else "negative"

/-! ## Layout geometry

`computeVizLayout`, `radius`, the per-tick `clamp`.  Coordinates and sizes
are real numbers; a possibly non-finite JavaScript number is an `Option ℝ`
(`none` = `NaN` / `±∞` / `undefined`, exactly what fails `Number.isFinite`). -/

/-- The two node kinds of the bubble graph. -/
inductive NodeType where
  | video
  | ticker
  deriving Repr, DecidableEq

/-- What `radius` reads off a node. -/
structure NodeDatum where
  type : NodeType
  weight : ℝ

/-- `base = d.type === 'video' ? 8 : 12`. -/
def baseOf (t : NodeType) : ℝ := if t = NodeType.video then 8 else 12

/-- `scale = d.type === 'video' ? 2.4 : 3.2`. -/
def scaleOf (t : NodeType) : ℝ := if t = NodeType.video then 2.4 else 3.2

/-- `cap = d.type === 'video' ? 34 : 38`. -/
def capOf (t : NodeType) : ℝ := if t = NodeType.video then 34 else 38

/-- `radius(d) = Math.min(cap, base + scale * Math.sqrt(d.weight))`. -/
noncomputable def radius (d : NodeDatum) : ℝ :=
  min (capOf d.type) (baseOf d.type + scaleOf d.type * Real.sqrt d.weight)

/-- The layout values of `computeVizLayout` that the tick handler uses. -/
structure VizLayout where
  width : ℝ
  height : ℝ

/-- `computeVizLayout`: fixed width 920; height is
`min(max(420, min(820, floor(viewportHeight * 0.65))), 520 + max(0, nodeCount - 30) * 8)`. -/
noncomputable def computeVizLayout (nodeCount : ℕ) (viewportHeight : ℝ) : VizLayout :=
  let extraHeight : ℝ := (max 0 ((nodeCount : ℤ) - 30) : ℤ) * 8
  let desiredHeight : ℝ := 520 + extraHeight
  let maxHeight : ℝ := max 420 (min 820 ((⌊viewportHeight * 0.65⌋ : ℤ) : ℝ))
  { width := 920, height := min maxHeight desiredHeight }

/-- The per-tick `clamp`: the midpoint `(lo + hi) / 2` for a non-finite
coordinate, else `Math.max(lo, Math.min(hi, v))`. -/
noncomputable def clamp (v : Option ℝ) (lo hi : ℝ) : ℝ :=
  match v with
  | none => (lo + hi) / 2
  | some x => max lo (min hi x)

/-- A simulation node at tick time: its datum and its current (possibly
non-finite) coordinates. -/
structure SimNode where
  datum : NodeDatum
  x : Option ℝ
  y : Option ℝ

/-- The assignment the tick handler performs on one node:
`d.x = clamp(d.x, r, W - r); d.y = clamp(d.y, r, H - r)` with `r = radius(d)`. -/
noncomputable def tickStep (W H : ℝ) (d : SimNode) : ℝ × ℝ :=
  (clamp d.x (radius d.datum) (W - radius d.datum),
   clamp d.y (radius d.datum) (H - radius d.datum))


/-! ## Reference definitions taken from the spec's words

For comparison against the implementation (refinement checks); they are NOT
translations of the source. -/

/-- Sentiment values the spec considers valid: positive, negative, neutral
(everything else, a missing value included, is "invalid sentiment"). -/
def validSentiment (s : Option String) : Prop :=
  s = some "positive" ∨ s = some "negative" ∨ s = some "neutral"

/-- Spec reading of the per-ticker positive tally, "weighted by edge
weight". -/
def specWeightedPos (items : List RawItem) (sym : String) : Nat :=
  (((edgePairs items).filter
      (fun p => decide (symP2 p.2 = sym) && decide (p.2.sentiment = some "positive"))).map
    (fun p => edgeWeight p.2)).sum

/-- Spec reading of the per-ticker negative tally, "weighted by edge
weight". -/
def specWeightedNeg (items : List RawItem) (sym : String) : Nat :=
  (((edgePairs items).filter
      (fun p => decide (symP2 p.2 = sym) && decide (p.2.sentiment = some "negative"))).map
    (fun p => edgeWeight p.2)).sum

/-- Spec reading of the overall ticker sentiment: the tie-break rule applied
to the weight-summed tallies. -/
def specWeightedOverall (items : List RawItem) (sym : String) : String :=
  if specWeightedPos items sym = specWeightedNeg items sym then "neutral"
  else if specWeightedPos items sym > specWeightedNeg items sym then "positive"
  else "negative"

/-- Spec reading of a mention count: the number of (distinct) videos in the
list with at least one edge for the symbol. -/
def distinctVideosMentioning (dItems : List RawItem) (sym : String) : Nat :=
  (dItems.filter (fun v => v.edges.any (fun e => decide (symTP e = sym)))).length

/-! ## Concrete inputs for counterexamples and witnesses -/

/-- Two raw entries sharing the video id `v1` (duplicate video entries):
`videoMap` overwrites, `links` accumulates. -/
def dupVideoItems : List RawItem :=
  [⟨"v1", none, [⟨some "T", some "positive", some ["a", "b"]⟩]⟩,
   ⟨"v1", none, [⟨some "U", some "positive", some ["a", "b", "c"]⟩]⟩]

/-- One video, one positive edge with two key points, published at epoch
day 0. -/
def wItems : List RawItem :=
  [⟨"v1", some 0, [⟨some "T", some "positive", some ["a", "b"]⟩]⟩]

/-- One video with a heavy positive edge (weight 3) and a light negative edge
(weight 1) for the same ticker `T`. -/
def mixedWeightItems : List RawItem :=
  [⟨"A", none, [⟨some "T", some "positive", some ["a", "b", "c"]⟩,
                ⟨some "T", some "negative", none⟩]⟩]

/-- One video whose edge list mentions the ticker `T` twice. -/
def dupEdgeItems : List RawItem :=
  [⟨"v1", none, [⟨some "T", some "positive", some []⟩,
                 ⟨some "T", some "positive", some []⟩]⟩]

/-- One video with one edge whose sentiment `"bogus"` is not a valid
sentiment value. -/
def bogusSentItems : List RawItem :=
  [⟨"v1", none, [⟨some "T", some "bogus", some ["a"]⟩]⟩]

/-- A weight-0 video node driven to `x = -5` (left of its radius). -/
noncomputable def node0 : SimNode := ⟨⟨NodeType.video, 0⟩, some (-5), none⟩

/-- A ticker node whose two coordinates are non-finite at tick time. -/
noncomputable def nanNode : SimNode := ⟨⟨NodeType.ticker, 4⟩, none, none⟩

/-! ## Helper lemmas -/

theorem mapGet_mapSet_self {α : Type} (k : String) (d v : α) (m : List (String × α)) :
    mapGet k d (mapSet k v m) = v := by
  induction m with
  | nil => simp [mapGet, mapSet]
  | cons p m ih =>
    by_cases h : p.1 = k
    · simp [mapGet, mapSet, h]
    · simp [mapGet, mapSet, h, ih]

theorem mapGet_mapSet_ne {α : Type} (k k' : String) (hne : k' ≠ k) (d v : α)
    (m : List (String × α)) : mapGet k' d (mapSet k v m) = mapGet k' d m := by
  have hkk : k ≠ k' := Ne.symm hne
  induction m with
  | nil => simp [mapGet, mapSet, hkk]
  | cons p m ih =>
    by_cases h : p.1 = k
    · subst h
      simp [mapGet, mapSet, hkk]
    · by_cases h' : p.1 = k'
      · simp [mapGet, mapSet, h, h', hne]
      · simp [mapGet, mapSet, h, h', ih]

theorem mapSet_of_not_mem {α : Type} (k : String) (v : α) (m : List (String × α))
    (h : k ∉ mapKeys m) : mapSet k v m = m ++ [(k, v)] := by
  induction m with
  | nil => simp [mapSet]
  | cons p m ih =>
    simp only [mapKeys, List.map_cons, List.mem_cons] at h
    push_neg at h
    have h1 : p.1 ≠ k := Ne.symm h.1
    simp [mapSet, h1, ih (by simpa [mapKeys] using h.2)]

theorem mapKeys_mapSet {α : Type} (k : String) (v : α) (m : List (String × α)) :
    mapKeys (mapSet k v m) = if k ∈ mapKeys m then mapKeys m else mapKeys m ++ [k] := by
  induction m with
  | nil => simp [mapSet, mapKeys]
  | cons p m ih =>
    by_cases h : p.1 = k
    · simp [mapSet, mapKeys, h]
    · have hk : k ≠ p.1 := Ne.symm h
      simp only [mapSet, if_neg h, mapKeys, List.map_cons] at ih ⊢
      rw [ih]
      by_cases hm : k ∈ List.map Prod.fst m <;> simp [hm, hk]

theorem mem_mapKeys_mapSet {α : Type} (k k' : String) (v : α) (m : List (String × α)) :
    k' ∈ mapKeys (mapSet k v m) ↔ k' ∈ mapKeys m ∨ k' = k := by
  rw [mapKeys_mapSet]
  by_cases hm : k ∈ mapKeys m
  · simp only [if_pos hm]
    constructor
    · exact Or.inl
    · rintro (h | rfl) <;> [exact h; exact hm]
  · simp [if_neg hm]

/-- Reading one key out of an upsert loop: the final value at `k` is the fold
of the update function over just the elements keyed `k`. -/
theorem mapGet_upsertFold {α β : Type} (key : β → String) (upd : α → β → α) (d : α)
    (L : List β) (m : List (String × α)) (k : String) :
    mapGet k d (upsertFold key upd d m L)
      = (L.filter (fun x => decide (key x = k))).foldl upd (mapGet k d m) := by
  induction L generalizing m with
  | nil => simp [upsertFold]
  | cons x L ih =>
    simp only [upsertFold, List.foldl_cons] at ih ⊢
    rw [ih]
    by_cases h : key x = k
    · subst h
      simp [mapGet_mapSet_self]
    · rw [mapGet_mapSet_ne _ _ (fun hh => h hh.symm)]
      simp [h]

theorem mem_mapKeys_upsertFold {α β : Type} (key : β → String) (upd : α → β → α) (d : α)
    (L : List β) (m : List (String × α)) (k : String) :
    k ∈ mapKeys (upsertFold key upd d m L) ↔ k ∈ mapKeys m ∨ ∃ x ∈ L, key x = k := by
  induction L generalizing m with
  | nil => simp [upsertFold]
  | cons x L ih =>
    simp only [upsertFold, List.foldl_cons] at ih ⊢
    rw [ih, mem_mapKeys_mapSet]
    constructor
    · rintro ((h | rfl) | ⟨y, hy, rfl⟩)
      · exact Or.inl h
      · exact Or.inr ⟨x, List.mem_cons_self x L, rfl⟩
      · exact Or.inr ⟨y, List.mem_cons_of_mem x hy, rfl⟩
    · rintro (h | ⟨y, hy, rfl⟩)
      · exact Or.inl (Or.inl h)
      · rcases List.mem_cons.1 hy with rfl | hy
        · exact Or.inl (Or.inr rfl)
        · exact Or.inr ⟨y, hy, rfl⟩

theorem mapValsSum_append_single (m : List (String × Nat)) (k : String) (v : Nat) :
    mapValsSum (m ++ [(k, v)]) = mapValsSum m + v := by
  simp [mapValsSum]

/-- The `videoMap` loop conserves weight as long as no video id repeats:
each processed item appends a fresh binding worth its `vw`. -/
theorem videoMap_foldl_sum (L : List RawItem) (m : List (String × Nat))
    (hnd : (L.map RawItem.video_id).Nodup)
    (hdis : ∀ v ∈ L, v.video_id ∉ mapKeys m) :
    mapValsSum (L.foldl videoStep m) = mapValsSum m + (L.map itemVw).sum := by
  induction L generalizing m with
  | nil => simp
  | cons v L ih =>
    simp only [List.map_cons, List.nodup_cons] at hnd
    simp only [List.foldl_cons, List.map_cons, List.sum_cons]
    by_cases h : 0 < itemVw v
    · have hv : v.video_id ∉ mapKeys m := hdis v (List.mem_cons_self v L)
      rw [videoStep, if_pos h, mapSet_of_not_mem _ _ _ hv]
      rw [ih _ hnd.2 ?_]
      · rw [mapValsSum_append_single]
        omega
      · intro u hu
        have hkeys : mapKeys (m ++ [(v.video_id, itemVw v)]) = mapKeys m ++ [v.video_id] := by
          simp [mapKeys]
        rw [hkeys]
        intro hmem
        rcases List.mem_append.1 hmem with hmem | hmem
        · exact hdis u (List.mem_cons_of_mem v hu) hmem
        · have : u.video_id = v.video_id := by simpa using hmem
          exact hnd.1 (this ▸ List.mem_map_of_mem RawItem.video_id hu)
    · have h0 : itemVw v = 0 := Nat.eq_zero_of_not_pos h
      rw [videoStep, if_neg h,
        ih _ hnd.2 (fun u hu => hdis u (List.mem_cons_of_mem v hu))]
      omega

theorem foldl_add_eq_sum {β : Type} (g : β → Nat) (L : List β) (n : Nat) :
    L.foldl (fun a x => a + g x) n = n + (L.map g).sum := by
  induction L generalizing n with
  | nil => simp
  | cons x L ih => simp [ih, Nat.add_assoc]

theorem countP_flatMap {α β : Type} (f : α → List β) (p : β → Bool) (L : List α) :
    ((L.flatMap f).countP p) = (L.map fun x => (f x).countP p).sum := by
  induction L with
  | nil => simp
  | cons x L ih => simp [List.flatMap_cons, List.countP_append, ih]

theorem sum_map_flatMap {α β : Type} (f : α → List β) (g : β → Nat) (L : List α) :
    (((L.flatMap f).map g).sum) = (L.map fun x => ((f x).map g).sum).sum := by
  induction L with
  | nil => simp
  | cons x L ih => simp [List.flatMap_cons, ih]

/-- Total link weight = total `vw` over the items that pass the id guard. -/
theorem linksOf_weight_sum (items : List RawItem) :
    ((linksOf items).map Link.weight).sum
      = ((items.filter (fun v => decide (v.video_id ≠ ""))).map itemVw).sum := by
  rw [linksOf, edgePairs, List.map_map, sum_map_flatMap]
  congr 1
  apply List.map_congr_left
  intro v _
  simp [List.map_map, Function.comp_def, mkLink, itemVw]


/-! ## Claims -/

/-- **C1** (amended).  Every normalized edge's weight equals
`max(1, length of key_points)` and is `≥ 1`; every link arises from a kept
edge (non-empty ticker, item with a truthy video id), so dropped edges
contribute nothing; and — provided no video id repeats among the kept
items — the sum of the per-video weights over all video nodes equals the sum
of the weights of all normalized edges. -/
theorem C1_weight_formula_and_conservation (items : List RawItem)
    (hnodup : ((items.filter (fun v => decide (v.video_id ≠ ""))).map RawItem.video_id).Nodup) :
    (∀ l ∈ linksOf items, 1 ≤ l.weight) ∧
    (∀ l ∈ linksOf items, ∃ v ∈ items, v.video_id ≠ "" ∧ ∃ e ∈ v.edges,
        tickerFalsy e.ticker = false ∧ l = mkLink (v.video_id, e) ∧
        l.weight = max 1 (e.key_points.getD []).length) ∧
    mapValsSum (videoMap items) = ((linksOf items).map Link.weight).sum := by
  refine ⟨?_, ?_, ?_⟩
  · intro l hl
    obtain ⟨p, _, rfl⟩ := List.mem_map.1 hl
    simp [mkLink, edgeWeight]
  · intro l hl
    obtain ⟨p, hp, rfl⟩ := List.mem_map.1 hl
    obtain ⟨v, hv, hmem⟩ := List.mem_flatMap.1 hp
    obtain ⟨e, he, hpe⟩ := List.mem_map.1 hmem
    obtain ⟨hv1, hv2⟩ := List.mem_filter.1 hv
    obtain ⟨he1, he2⟩ := List.mem_filter.1 he
    subst hpe
    exact ⟨v, hv1, by simpa using hv2, e, he1, by simpa using he2, rfl, rfl⟩
  · rw [videoMap, videoMap_foldl_sum _ [] hnodup (by simp [mapKeys]),
      linksOf_weight_sum]
    simp [mapValsSum]

/-- Witness for C1 at a one-item input: weight conservation holds there. -/
theorem C1_witness :
    (∀ l ∈ linksOf wItems, 1 ≤ l.weight) ∧
    mapValsSum (videoMap wItems) = ((linksOf wItems).map Link.weight).sum := by
  have h := C1_weight_formula_and_conservation wItems (by decide)
  exact ⟨h.1, h.2.2⟩

/-- Counterexample to C1 as stated: with two raw entries sharing the video id
`v1`, `videoMap` keeps only the last entry's `vw` (3), while the normalized
edges weigh 2 + 3 = 5. -/
theorem C1_counterexample :
    mapValsSum (videoMap dupVideoItems) = 3 ∧
    ((linksOf dupVideoItems).map Link.weight).sum = 5 ∧
    mapValsSum (videoMap dupVideoItems) ≠ ((linksOf dupVideoItems).map Link.weight).sum := by
  decide

/-- **C9** (amended).  The derived link list contains one link per kept raw
edge — duplicate `(video, ticker)` raw edges therefore yield multiple
parallel links, they are not merged — while the ticker node weights do merge
duplicates by summing the edge weights per symbol. -/
theorem C9_links_per_raw_edge (items : List RawItem) :
    (linksOf items).length = (edgePairs items).length ∧
    (∀ sym : String, mapGet sym 0 (tickerMap items)
        = (((edgePairs items).filter (fun p => decide (symP2 p.2 = sym))).map
            (fun p => edgeWeight p.2)).sum) := by
  constructor
  · simp [linksOf]
  · intro sym
    rw [tickerMap, mapGet_upsertFold, foldl_add_eq_sum]
    simp [mapGet]

/-- Counterexample to C9 as stated: one video mentioning `T` twice yields two
links with the same source and target. -/
theorem C9_counterexample :
    linksOf dupEdgeItems
      = [⟨"v1", "T", "positive", 1⟩, ⟨"v1", "T", "positive", 1⟩] ∧
    ¬ (linksOf dupEdgeItems).Pairwise
        (fun a b => a.source ≠ b.source ∨ a.target ≠ b.target) := by
  constructor
  · decide
  · intro h
    rw [show linksOf dupEdgeItems
        = [⟨"v1", "T", "positive", 1⟩, ⟨"v1", "T", "positive", 1⟩] from by decide] at h
    rcases List.pairwise_cons.1 h with ⟨h1, -⟩
    rcases h1 _ (List.mem_singleton.2 rfl) with h2 | h2 <;> exact h2 rfl

/-- **C6** (amended).  An edge whose sentiment is not one of
positive/negative/neutral (a missing sentiment included) is NOT dropped: the
`tickerStats` update still counts its mention and files its video id under
the neutral set, its link keeps the raw coerced sentiment and full weight,
and the link list keeps one entry per kept edge regardless of sentiment. -/
theorem C6_invalid_sentiment_kept (items : List RawItem) (p : String × RawEdge)
    (r : TickerRow) (hinv : ¬ validSentiment p.2.sentiment) :
    rowUpdate r p
      = { mentions := r.mentions + 1, positiveVideoIds := r.positiveVideoIds,
          neutralVideoIds := setAdd p.1 r.neutralVideoIds,
          negativeVideoIds := r.negativeVideoIds } ∧
    (mkLink p).weight = edgeWeight p.2 ∧
    (mkLink p).sentiment = sentCoerce p.2.sentiment ∧
    (linksOf items).length = (edgePairs items).length := by
  simp only [validSentiment] at hinv
  push_neg at hinv
  refine ⟨?_, rfl, rfl, by simp [linksOf]⟩
  rw [rowUpdate, if_neg hinv.1, if_neg hinv.2.1]

/-- Witness for C6: the `"bogus"` edge updates the neutral tally of an empty
row. -/
theorem C6_witness :
    rowUpdate emptyRow ("v1", RawEdge.mk (some "T") (some "bogus") (some ["a"]))
      = ⟨1, [], ["v1"], []⟩ := by
  have h := C6_invalid_sentiment_kept bogusSentItems
    ("v1", RawEdge.mk (some "T") (some "bogus") (some ["a"])) emptyRow (by simp [validSentiment])
  rw [h.1]
  decide

/-- Counterexample to C6 as stated: the `"bogus"`-sentiment edge contributes a
link, video and ticker node weight, and a (neutral) tally entry. -/
theorem C6_counterexample :
    linksOf bogusSentItems = [⟨"v1", "T", "bogus", 1⟩] ∧
    mapGet "T" 0 (tickerMap bogusSentItems) = 1 ∧
    mapValsSum (videoMap bogusSentItems) = 1 ∧
    mapGet "T" emptyRow (tickerStatsMap bogusSentItems) = ⟨1, [], ["v1"], []⟩ := by
  decide

/-- The shared tie-break rule on a pair of tallies. -/
theorem tieBreakNat (p n : Nat) :
    ((if p = n then "neutral" else if p > n then "positive" else "negative") = "neutral"
        ↔ p = n) ∧
    ((if p = n then "neutral" else if p > n then "positive" else "negative") = "positive"
        ↔ n < p) ∧
    ((if p = n then "neutral" else if p > n then "positive" else "negative") = "negative"
        ↔ p < n) := by
  rcases Nat.lt_trichotomy p n with h | h | h
  · rw [if_neg (by omega), if_neg (by omega)]
    exact ⟨iff_of_false (by decide) (by omega), iff_of_false (by decide) (by omega),
      iff_of_true rfl h⟩
  · rw [if_pos h]
    exact ⟨iff_of_true rfl h, iff_of_false (by decide) (by omega),
      iff_of_false (by decide) (by omega)⟩
  · rw [if_neg (by omega), if_pos (by omega)]
    exact ⟨iff_of_false (by decide) (by omega), iff_of_true rfl h,
      iff_of_false (by decide) (by omega)⟩

theorem rowUpdate_mentions (ps : List (String × RawEdge)) (r : TickerRow) :
    (ps.foldl rowUpdate r).mentions = r.mentions + ps.length := by
  induction ps generalizing r with
  | nil => simp
  | cons p ps ih =>
    rw [List.foldl_cons, ih]
    have h : (rowUpdate r p).mentions = r.mentions + 1 := by
      by_cases hp : p.2.sentiment = some "positive" <;>
        by_cases hn : p.2.sentiment = some "negative" <;>
          simp [rowUpdate, hp, hn]
    rw [h, List.length_cons]
    omega

theorem rowUpdate_posIds (ps : List (String × RawEdge)) (r : TickerRow) :
    (ps.foldl rowUpdate r).positiveVideoIds
      = ((ps.filter (fun p => decide (p.2.sentiment = some "positive"))).map Prod.fst).foldl
          (fun s x => setAdd x s) r.positiveVideoIds := by
  induction ps generalizing r with
  | nil => simp
  | cons p ps ih =>
    rw [List.foldl_cons, ih, List.filter_cons]
    by_cases hp : p.2.sentiment = some "positive"
    · rw [if_pos (by simpa using hp)]
      have h : (rowUpdate r p).positiveVideoIds = setAdd p.1 r.positiveVideoIds := by
        simp [rowUpdate, hp]
      rw [h, List.map_cons, List.foldl_cons]
    · rw [if_neg (by simpa using hp)]
      have h : (rowUpdate r p).positiveVideoIds = r.positiveVideoIds := by
        by_cases hn : p.2.sentiment = some "negative" <;> simp [rowUpdate, hp, hn]
      rw [h]

theorem rowUpdate_negIds (ps : List (String × RawEdge)) (r : TickerRow) :
    (ps.foldl rowUpdate r).negativeVideoIds
      = ((ps.filter (fun p => decide (p.2.sentiment = some "negative"))).map Prod.fst).foldl
          (fun s x => setAdd x s) r.negativeVideoIds := by
  induction ps generalizing r with
  | nil => simp
  | cons p ps ih =>
    rw [List.foldl_cons, ih, List.filter_cons]
    by_cases hn : p.2.sentiment = some "negative"
    · rw [if_pos (by simpa using hn)]
      have h : (rowUpdate r p).negativeVideoIds = setAdd p.1 r.negativeVideoIds := by
        simp [rowUpdate, hn]
      rw [h, List.map_cons, List.foldl_cons]
    · rw [if_neg (by simpa using hn)]
      have h : (rowUpdate r p).negativeVideoIds = r.negativeVideoIds := by
        by_cases hp : p.2.sentiment = some "positive" <;> simp [rowUpdate, hp, hn]
      rw [h]

theorem setAdd_foldl_toFinset (L : List String) (s : List String) :
    (L.foldl (fun s x => setAdd x s) s).toFinset = s.toFinset ∪ L.toFinset := by
  induction L generalizing s with
  | nil => simp
  | cons x L ih =>
    rw [List.foldl_cons, ih]
    ext a
    by_cases h : x ∈ s
    · simp only [setAdd, if_pos h, Finset.mem_union, List.mem_toFinset, List.mem_cons]
      constructor
      · rintro (ha | ha)
        · exact Or.inl ha
        · exact Or.inr (Or.inr ha)
      · rintro (ha | rfl | ha)
        · exact Or.inl ha
        · exact Or.inl h
        · exact Or.inr ha
    · simp only [setAdd, if_neg h, Finset.mem_union, List.mem_toFinset, List.mem_cons,
        List.mem_append, List.mem_singleton, List.not_mem_nil, or_false]
      constructor
      · rintro ((ha | rfl) | ha)
        · exact Or.inl ha
        · exact Or.inr (Or.inl rfl)
        · exact Or.inr (Or.inr ha)
      · rintro (ha | rfl | ha)
        · exact Or.inl (Or.inl ha)
        · exact Or.inl (Or.inr rfl)
        · exact Or.inr ha

theorem setAdd_foldl_nodup (L : List String) (s : List String) (hs : s.Nodup) :
    (L.foldl (fun s x => setAdd x s) s).Nodup := by
  induction L generalizing s with
  | nil => exact hs
  | cons x L ih =>
    rw [List.foldl_cons]
    apply ih
    by_cases h : x ∈ s
    · simpa [setAdd, h] using hs
    · rw [setAdd, if_neg h]
      simp [List.nodup_append, hs, h]

theorem setAdd_foldl_length (L : List String) :
    (L.foldl (fun s x => setAdd x s) []).length = L.toFinset.card := by
  have h1 := setAdd_foldl_nodup L [] List.nodup_nil
  have h2 := setAdd_foldl_toFinset L []
  rw [← List.toFinset_card_of_nodup h1, h2]
  simp

theorem statUpd_mentions (es : List RawEdge) (s : PerTickerStat) :
    (es.foldl statUpd s).mentions = s.mentions + (es.map edgeWeight).sum := by
  induction es generalizing s with
  | nil => simp
  | cons e es ih =>
    rw [List.foldl_cons, ih]
    have h : (statUpd s e).mentions = s.mentions + edgeWeight e := by
      by_cases hp : sentTP e = "positive" <;>
        by_cases hn : sentTP e = "negative" <;>
          simp [statUpd, hp, hn]
    rw [h, List.map_cons, List.sum_cons]
    omega

theorem statUpd_positive (es : List RawEdge) (s : PerTickerStat) :
    (es.foldl statUpd s).positive
      = s.positive
        + ((es.filter (fun e => decide (sentTP e = "positive"))).map edgeWeight).sum := by
  induction es generalizing s with
  | nil => simp
  | cons e es ih =>
    rw [List.foldl_cons, ih, List.filter_cons]
    by_cases hp : sentTP e = "positive"
    · rw [if_pos (by simpa using hp)]
      have h : (statUpd s e).positive = s.positive + edgeWeight e := by
        simp [statUpd, hp]
      rw [h, List.map_cons, List.sum_cons]
      omega
    · rw [if_neg (by simpa using hp)]
      have h : (statUpd s e).positive = s.positive := by
        by_cases hn : sentTP e = "negative" <;> simp [statUpd, hp, hn]
      rw [h]

theorem statUpd_negative (es : List RawEdge) (s : PerTickerStat) :
    (es.foldl statUpd s).negative
      = s.negative
        + ((es.filter (fun e => decide (sentTP e = "negative"))).map edgeWeight).sum := by
  induction es generalizing s with
  | nil => simp
  | cons e es ih =>
    rw [List.foldl_cons, ih, List.filter_cons]
    by_cases hn : sentTP e = "negative"
    · rw [if_pos (by simpa using hn)]
      have h : (statUpd s e).negative = s.negative + edgeWeight e := by
        simp [statUpd, hn]
      rw [h, List.map_cons, List.sum_cons]
      omega
    · rw [if_neg (by simpa using hn)]
      have h : (statUpd s e).negative = s.negative := by
        by_cases hp : sentTP e = "positive" <;> simp [statUpd, hp, hn]
      rw [h]

/-- **C2** (amended).  The tie-break rule (equal tallies ⇒ neutral, else the
strictly higher tally wins) is the same wherever an overall ticker sentiment
is shown — the infographic node color (`tickerStats.overall`) and the
detail-row edge chips (`pickSentiment`) — but the tallies differ: the
infographic compares the numbers of DISTINCT VIDEOS with positive resp.
negative edges for the ticker, while the edge chips compare tallies
weight-summed over edges (weighted by edge weight). -/
theorem C2_overall_sentiment_rule :
    (∀ r : TickerRow,
      (overall r = "neutral" ↔ r.positiveVideoIds.length = r.negativeVideoIds.length) ∧
      (overall r = "positive" ↔ r.negativeVideoIds.length < r.positiveVideoIds.length) ∧
      (overall r = "negative" ↔ r.positiveVideoIds.length < r.negativeVideoIds.length)) ∧
    (∀ s : PerTickerStat,
      (pickSentiment (some s) = "neutral" ↔ s.positive = s.negative) ∧
      (pickSentiment (some s) = "positive" ↔ s.negative < s.positive) ∧
      (pickSentiment (some s) = "negative" ↔ s.positive < s.negative)) ∧
    (∀ r : TickerRow,
      overall r
        = pickSentiment (some ⟨0, r.positiveVideoIds.length, r.negativeVideoIds.length, 0⟩)) ∧
    (∀ (items : List RawItem) (sym : String),
      (mapGet sym emptyRow (tickerStatsMap items)).positiveVideoIds.length
        = ((((edgePairs items).filter (fun p => decide (symP2 p.2 = sym))).filter
            (fun p => decide (p.2.sentiment = some "positive"))).map Prod.fst).toFinset.card ∧
      (mapGet sym emptyRow (tickerStatsMap items)).negativeVideoIds.length
        = ((((edgePairs items).filter (fun p => decide (symP2 p.2 = sym))).filter
            (fun p => decide (p.2.sentiment = some "negative"))).map Prod.fst).toFinset.card) ∧
    (∀ (v : RawItem) (sym : String),
      (mapGet sym emptyStat (perTickerOf v)).positive
        = ((((v.edges.filter (fun e => decide (symTP e ≠ ""))).filter
            (fun e => decide (symTP e = sym))).filter
            (fun e => decide (sentTP e = "positive"))).map edgeWeight).sum ∧
      (mapGet sym emptyStat (perTickerOf v)).negative
        = ((((v.edges.filter (fun e => decide (symTP e ≠ ""))).filter
            (fun e => decide (symTP e = sym))).filter
            (fun e => decide (sentTP e = "negative"))).map edgeWeight).sum) := by
  refine ⟨fun r => tieBreakNat _ _, fun s => tieBreakNat _ _, fun r => rfl, ?_, ?_⟩
  · intro items sym
    rw [tickerStatsMap, mapGet_upsertFold,
      show mapGet sym emptyRow ([] : List (String × TickerRow)) = emptyRow from rfl]
    constructor
    · rw [rowUpdate_posIds, show emptyRow.positiveVideoIds = [] from rfl, setAdd_foldl_length]
    · rw [rowUpdate_negIds, show emptyRow.negativeVideoIds = [] from rfl, setAdd_foldl_length]
  · intro v sym
    rw [perTickerOf, mapGet_upsertFold,
      show mapGet sym emptyStat ([] : List (String × PerTickerStat)) = emptyStat from rfl]
    constructor
    · rw [statUpd_positive, show emptyStat.positive = 0 from rfl, Nat.zero_add]
    · rw [statUpd_negative, show emptyStat.negative = 0 from rfl, Nat.zero_add]

/-- Counterexample to C2 as stated: one video with a weight-3 positive edge
and a weight-1 negative edge for `T`.  The weighted tallies are 3 vs 1 — not
equal — yet the infographic's overall sentiment for `T` is neutral, so the
displayed overall sentiment is not derived from the weighted tallies. -/
theorem C2_counterexample :
    specWeightedPos mixedWeightItems "T" = 3 ∧
    specWeightedNeg mixedWeightItems "T" = 1 ∧
    specWeightedOverall mixedWeightItems "T" = "positive" ∧
    overallOf mixedWeightItems "T" = "neutral" ∧
    overallOf mixedWeightItems "T" ≠ specWeightedOverall mixedWeightItems "T" := by
  decide

theorem foldl_count {β : Type} (L : List β) (n : Nat) :
    L.foldl (fun a _ => a + 1) n = n + L.length := by
  induction L generalizing n with
  | nil => simp
  | cons x L ih => simp [ih]; omega

/-- The final `mentionCounts` value of a symbol counts the edges keyed to
it. -/
theorem mentionCounts_get (d : List RawItem) (sym : String) :
    mapGet sym 0 (mentionCounts d)
      = (mentionEdges d).countP (fun e => decide (symTP e = sym)) := by
  rw [mentionCounts, mapGet_upsertFold,
    show mapGet sym 0 ([] : List (String × Nat)) = 0 from rfl, foldl_count,
    List.countP_eq_length_filter]
  simp

/-- A sum of per-item counts that are each at most one equals the number of
items with a hit. -/
theorem count_eq_filter_length (d : List RawItem) (p : RawEdge → Bool)
    (h1 : ∀ v ∈ d, v.edges.countP p ≤ 1) :
    (d.map fun v => v.edges.countP p).sum
      = (d.filter (fun v => v.edges.any p)).length := by
  induction d with
  | nil => simp
  | cons v d ih =>
    have hv := h1 v (List.mem_cons_self v d)
    have ihd := ih (fun u hu => h1 u (List.mem_cons_of_mem v hu))
    rw [List.map_cons, List.sum_cons, List.filter_cons, ihd]
    by_cases h : v.edges.any p
    · have hpos : 0 < v.edges.countP p := by
        rw [List.countP_pos_iff]
        simpa using List.any_eq_true.1 h
      have hone : v.edges.countP p = 1 := by omega
      rw [if_pos h, hone, List.length_cons]
      omega
    · have hzero : v.edges.countP p = 0 := by
        by_contra hc
        have : 0 < v.edges.countP p := Nat.pos_of_ne_zero hc
        rw [List.countP_pos_iff] at this
        exact absurd (List.any_eq_true.2 (by simpa using this)) (by simpa using h)
      rw [if_neg (by simpa using h), hzero, Nat.zero_add]

/-- **C3** (amended).  `mentionCounts` maps a ticker to the number of EDGES
referencing it across the date-filtered set (one per raw edge occurrence,
never the sum of edge weights).  Only when every video's edge list mentions
the ticker at most once does this equal the number of distinct videos
mentioning it. -/
theorem C3_mention_count_is_edge_count (dItems : List RawItem) (sym : String)
    (hsym : sym ≠ "")
    (honce : ∀ v ∈ dItems, v.edges.countP (fun e => decide (symTP e = sym)) ≤ 1) :
    mapGet sym 0 (mentionCounts dItems)
      = (dItems.flatMap RawItem.edges).countP (fun e => decide (symTP e = sym)) ∧
    mapGet sym 0 (mentionCounts dItems) = distinctVideosMentioning dItems sym := by
  have hedge : ∀ e : RawEdge,
      (decide (symTP e = sym) && decide (symTP e ≠ "")) = decide (symTP e = sym) := by
    intro e
    by_cases h : symTP e = sym
    · simp [h, hsym]
    · simp [h]
  have hget : mapGet sym 0 (mentionCounts dItems)
      = (dItems.flatMap RawItem.edges).countP (fun e => decide (symTP e = sym)) := by
    rw [mentionCounts_get, mentionEdges, List.countP_filter]
    simp only [hedge]
  refine ⟨hget, ?_⟩
  rw [hget, countP_flatMap, distinctVideosMentioning,
    count_eq_filter_length _ _ honce]

/-- Witness for C3 at a one-video input mentioning `T` once. -/
theorem C3_witness :
    mapGet "T" 0 (mentionCounts wItems) = distinctVideosMentioning wItems "T" :=
  (C3_mention_count_is_edge_count wItems "T" (by decide) (by decide)).2

/-- Counterexample to C3 as stated: a single video with two edges for `T`
contributes 2 to `mentionCounts`, although it is only 1 distinct video. -/
theorem C3_counterexample :
    mapGet "T" 0 (mentionCounts dupEdgeItems) = 2 ∧
    distinctVideosMentioning dupEdgeItems "T" = 1 := by
  decide

/-- **C4.**  A video passes the date filter exactly when its `published_at`
parses to a finite timestamp whose UTC day index (floor of epoch milliseconds
over 86,400,000) lies in the inclusive window
`[min(publishedMinDay, publishedMaxDay), max(...)]`; unparsable or missing
dates are excluded, and swapping the bounds leaves the output unchanged. -/
theorem C4_date_window (lo hi : Int) (items : List RawItem) :
    (∀ v : RawItem, v ∈ dateFilteredItems lo hi items ↔
      v ∈ items ∧ ∃ ms : Int, v.published_ms = some ms ∧
        min lo hi ≤ Int.fdiv ms 86400000 ∧ Int.fdiv ms 86400000 ≤ max lo hi) ∧
    dateFilteredItems lo hi items = dateFilteredItems hi lo items := by
  constructor
  · intro v
    rw [dateFilteredItems, List.mem_filter]
    cases hms : v.published_ms with
    | none => simp [toUtcDayIndex, hms]
    | some ms =>
      simp only [toUtcDayIndex, hms, Bool.and_eq_true, decide_eq_true_eq]
      constructor
      · rintro ⟨h1, h2, h3⟩
        exact ⟨h1, ms, rfl, h2, h3⟩
      · rintro ⟨h1, ms', hms', h2, h3⟩
        cases hms'
        exact ⟨h1, h2, h3⟩
  · rw [dateFilteredItems, dateFilteredItems]
    congr 1
    funext v
    rw [min_comm, max_comm]

theorem nodup_mapKeys_mapSet {α : Type} (k : String) (v : α) (m : List (String × α))
    (h : (mapKeys m).Nodup) : (mapKeys (mapSet k v m)).Nodup := by
  rw [mapKeys_mapSet]
  by_cases hm : k ∈ mapKeys m
  · rwa [if_pos hm]
  · rw [if_neg hm]
    simp [List.nodup_append, h, hm]

theorem nodup_mapKeys_upsertFold {α β : Type} (key : β → String) (upd : α → β → α)
    (d : α) (L : List β) (m : List (String × α)) (h : (mapKeys m).Nodup) :
    (mapKeys (upsertFold key upd d m L)).Nodup := by
  induction L generalizing m with
  | nil => exact h
  | cons x L ih =>
    rw [upsertFold, List.foldl_cons]
    exact ih _ (nodup_mapKeys_mapSet _ _ _ h)

/-- On a map with duplicate-free keys, `m.any (p.1 = sym && P p.2)` tests the
symbol's own entry. -/
theorem any_eq_mem_get {α : Type} (sym : String) (P : α → Bool) (d : α)
    (m : List (String × α)) (hm : (mapKeys m).Nodup) :
    (m.any (fun p => decide (p.1 = sym) && P p.2))
      = (decide (sym ∈ mapKeys m) && P (mapGet sym d m)) := by
  induction m with
  | nil => simp [mapKeys, mapGet]
  | cons p m ih =>
    simp only [mapKeys, List.map_cons, List.nodup_cons] at hm
    by_cases h : p.1 = sym
    · subst h
      have hnot : p.1 ∉ mapKeys m := hm.1
      have hany : m.any (fun q => decide (q.1 = p.1) && P q.2) = false := by
        rw [List.any_eq_false]
        intro q hq
        simp only [Bool.and_eq_true, decide_eq_true_eq, not_and]
        intro hq1
        exact absurd (hq1 ▸ List.mem_map_of_mem Prod.fst hq) hnot
      simp [List.any_cons, hany, mapGet, mapKeys]
    · have hne : sym ≠ p.1 := fun hh => h hh.symm
      simp only [List.any_cons, decide_eq_true_eq, h, decide_False, Bool.false_and,
        Bool.false_or, ih hm.2, mapGet, if_neg h, mapKeys, List.map_cons, List.mem_cons]
      congr 1
      simp [hne]

theorem mentionCounts_nodup_keys (d : List RawItem) :
    (mapKeys (mentionCounts d)).Nodup := by
  rw [mentionCounts]
  exact nodup_mapKeys_upsertFold _ _ _ _ _ (by simp [mapKeys])

theorem mentionCounts_mem_iff_pos (d : List RawItem) (sym : String) :
    sym ∈ mapKeys (mentionCounts d) ↔ 0 < mapGet sym 0 (mentionCounts d) := by
  rw [mentionCounts_get, mentionCounts, mem_mapKeys_upsertFold, List.countP_pos_iff]
  simp [mapKeys]

/-- **C5.**  With the mention bounds normalized to
`[min(mentionsMin, mentionsMax), max(...)]`, a ticker occurring in the
date-filtered set is allowed exactly when its mention count lies in that
inclusive window; each video's edge list is replaced by the edges whose
ticker is allowed, and a video is retained exactly when that filtered edge
list is non-empty. -/
theorem C5_mention_window (mMin mMax : Int) (dItems : List RawItem) (sym : String)
    (hpos : 0 < mapGet sym 0 (mentionCounts dItems)) :
    (allowedTicker (min mMin mMax) (max mMin mMax) (mentionCounts dItems) sym = true ↔
      (min mMin mMax ≤ ((mapGet sym 0 (mentionCounts dItems) : Nat) : Int) ∧
       ((mapGet sym 0 (mentionCounts dItems) : Nat) : Int) ≤ max mMin mMax)) ∧
    (∀ v' : RawItem, v' ∈ filteredItems mMin mMax dItems ↔
      ∃ v ∈ dItems,
        v' = restrictEdges (min mMin mMax) (max mMin mMax) (mentionCounts dItems) v ∧
        v'.edges ≠ []) := by
  constructor
  · have hany := any_eq_mem_get sym
      (fun x : Nat => decide (min mMin mMax ≤ (x : Int)) && decide ((x : Int) ≤ max mMin mMax))
      0 (mentionCounts dItems) (mentionCounts_nodup_keys dItems)
    rw [allowedTicker, hany,
      decide_eq_true ((mentionCounts_mem_iff_pos dItems sym).2 hpos)]
    simp
  · intro v'
    rw [filteredItems, List.mem_filter, List.mem_map]
    constructor
    · rintro ⟨⟨v, hv, rfl⟩, hne⟩
      exact ⟨v, hv, rfl, by simpa using hne⟩
    · rintro ⟨v, hv, rfl, hne⟩
      exact ⟨⟨v, hv, rfl⟩, by simpa using hne⟩

/-- Witness for C5: with bounds `[1, 1]`, the once-mentioned ticker `T` is
allowed. -/
theorem C5_witness :
    allowedTicker (min 1 1) (max 1 1) (mentionCounts wItems) "T" = true :=
  ((C5_mention_window 1 1 wItems "T" (by decide)).1).mpr (by decide)

theorem capOf_le_38 (t : NodeType) : capOf t ≤ 38 := by
  rw [capOf]
  split <;> norm_num

theorem scaleOf_nonneg (t : NodeType) : 0 ≤ scaleOf t := by
  rw [scaleOf]
  split <;> norm_num

theorem radius_le_38 (d : NodeDatum) : radius d ≤ 38 :=
  le_trans (min_le_left _ _) (capOf_le_38 d.type)

theorem radius_pos (d : NodeDatum) : 0 < radius d := by
  rw [radius]
  apply lt_min
  · rw [capOf]
    split <;> norm_num
  · have h1 : 0 ≤ scaleOf d.type * Real.sqrt d.weight :=
      mul_nonneg (scaleOf_nonneg d.type) (Real.sqrt_nonneg _)
    have h2 : (0 : ℝ) < baseOf d.type := by
      rw [baseOf]
      split <;> norm_num
    linarith

theorem layout_height_ge (nc : ℕ) (vh : ℝ) : 420 ≤ (computeVizLayout nc vh).height := by
  simp only [computeVizLayout]
  refine le_min (le_max_left _ _) ?_
  have h : (0 : ℝ) ≤ ((max 0 ((nc : ℤ) - 30) : ℤ) : ℝ) * 8 := by
    have := le_max_left (0 : ℤ) ((nc : ℤ) - 30)
    have h0 : (0 : ℝ) ≤ ((max 0 ((nc : ℤ) - 30) : ℤ) : ℝ) := by exact_mod_cast this
    linarith
  linarith

theorem clamp_bounds (v : Option ℝ) (lo hi : ℝ) (h : lo ≤ hi) :
    lo ≤ clamp v lo hi ∧ clamp v lo hi ≤ hi := by
  cases v with
  | none =>
    rw [clamp]
    constructor <;> [skip; skip] <;> linarith
  | some x =>
    rw [clamp]
    exact ⟨le_max_left _ _, max_le h (min_le_left _ _)⟩

theorem clamp_of_lt (x lo hi : ℝ) (h1 : x < lo) (h2 : lo ≤ hi) :
    clamp (some x) lo hi = lo := by
  rw [clamp, min_eq_right (le_of_lt (lt_of_lt_of_le h1 h2)), max_eq_left (le_of_lt h1)]

/-- **C7.**  On every tick, for dimensions produced by `computeVizLayout`
(width 920, height at least 420), each node's clamped coordinates land inside
`[radius, dimension - radius]`; in particular a finite `x` below the radius
is set to exactly the radius.  The clamp is part of the tick handler, so it
re-runs on every tick. -/
theorem C7_tick_clamp_in_frame (nc : ℕ) (vh : ℝ) (d : SimNode) :
    (radius d.datum
        ≤ (tickStep (computeVizLayout nc vh).width (computeVizLayout nc vh).height d).1 ∧
      (tickStep (computeVizLayout nc vh).width (computeVizLayout nc vh).height d).1
        ≤ (computeVizLayout nc vh).width - radius d.datum) ∧
    (radius d.datum
        ≤ (tickStep (computeVizLayout nc vh).width (computeVizLayout nc vh).height d).2 ∧
      (tickStep (computeVizLayout nc vh).width (computeVizLayout nc vh).height d).2
        ≤ (computeVizLayout nc vh).height - radius d.datum) ∧
    (∀ x0 : ℝ, d.x = some x0 → x0 < radius d.datum →
      (tickStep (computeVizLayout nc vh).width (computeVizLayout nc vh).height d).1
        = radius d.datum) ∧
    0 < radius d.datum := by
  have hr := radius_le_38 d.datum
  have hW : (computeVizLayout nc vh).width = 920 := rfl
  have hH := layout_height_ge nc vh
  have h1 : radius d.datum ≤ (computeVizLayout nc vh).width - radius d.datum := by
    rw [hW]; linarith
  have h2 : radius d.datum ≤ (computeVizLayout nc vh).height - radius d.datum := by
    linarith
  refine ⟨clamp_bounds d.x _ _ h1, clamp_bounds d.y _ _ h2, ?_, radius_pos d.datum⟩
  intro x0 hx0 hlt
  show clamp d.x (radius d.datum) _ = radius d.datum
  rw [hx0, clamp_of_lt _ _ _ hlt h1]

/-- **C10.**  If a coordinate is non-finite when the tick handler runs, the
clamp replaces it by the midpoint `(radius + (dimension - radius)) / 2` of
its allowed interval — the viewport center coordinate `dimension / 2` — so
the post-tick position is a (finite) real number inside the frame. -/
theorem C10_nonfinite_coord_centered (nc : ℕ) (vh : ℝ) (d : SimNode) :
    (d.x = none →
      (tickStep (computeVizLayout nc vh).width (computeVizLayout nc vh).height d).1
          = (radius d.datum + ((computeVizLayout nc vh).width - radius d.datum)) / 2 ∧
      (tickStep (computeVizLayout nc vh).width (computeVizLayout nc vh).height d).1
          = (computeVizLayout nc vh).width / 2 ∧
      radius d.datum
          ≤ (tickStep (computeVizLayout nc vh).width (computeVizLayout nc vh).height d).1 ∧
      (tickStep (computeVizLayout nc vh).width (computeVizLayout nc vh).height d).1
          ≤ (computeVizLayout nc vh).width - radius d.datum) ∧
    (d.y = none →
      (tickStep (computeVizLayout nc vh).width (computeVizLayout nc vh).height d).2
          = (radius d.datum + ((computeVizLayout nc vh).height - radius d.datum)) / 2 ∧
      (tickStep (computeVizLayout nc vh).width (computeVizLayout nc vh).height d).2
          = (computeVizLayout nc vh).height / 2 ∧
      radius d.datum
          ≤ (tickStep (computeVizLayout nc vh).width (computeVizLayout nc vh).height d).2 ∧
      (tickStep (computeVizLayout nc vh).width (computeVizLayout nc vh).height d).2
          ≤ (computeVizLayout nc vh).height - radius d.datum) := by
  have hr := radius_le_38 d.datum
  have hW : (computeVizLayout nc vh).width = 920 := rfl
  have hH := layout_height_ge nc vh
  have h1 : radius d.datum ≤ (computeVizLayout nc vh).width - radius d.datum := by
    rw [hW]; linarith
  have h2 : radius d.datum ≤ (computeVizLayout nc vh).height - radius d.datum := by
    linarith
  constructor
  · intro hx
    have he : (tickStep (computeVizLayout nc vh).width (computeVizLayout nc vh).height d).1
        = (radius d.datum + ((computeVizLayout nc vh).width - radius d.datum)) / 2 := by
      show clamp d.x _ _ = _
      rw [hx, clamp]
    refine ⟨he, by rw [he]; ring, ?_, ?_⟩
    · exact (clamp_bounds d.x _ _ h1).1
    · exact (clamp_bounds d.x _ _ h1).2
  · intro hy
    have he : (tickStep (computeVizLayout nc vh).width (computeVizLayout nc vh).height d).2
        = (radius d.datum + ((computeVizLayout nc vh).height - radius d.datum)) / 2 := by
      show clamp d.y _ _ = _
      rw [hy, clamp]
    refine ⟨he, by rw [he]; ring, ?_, ?_⟩
    · exact (clamp_bounds d.y _ _ h2).1
    · exact (clamp_bounds d.y _ _ h2).2

/-- **C8.**  `radius(node) = min(cap, base + scale * sqrt(weight))` with the
code constants (video: base 8, scale 2.4, cap 34; ticker: base 12, scale 3.2,
cap 38), the video cap strictly below the ticker cap; the radius is monotone
non-decreasing in the weight and bounded by the cap (hence sub-linear). -/
theorem C8_radius_formula (d : NodeDatum) :
    radius d = min (capOf d.type) (baseOf d.type + scaleOf d.type * Real.sqrt d.weight) ∧
    baseOf NodeType.video = 8 ∧ scaleOf NodeType.video = 2.4 ∧ capOf NodeType.video = 34 ∧
    baseOf NodeType.ticker = 12 ∧ scaleOf NodeType.ticker = 3.2 ∧
    capOf NodeType.ticker = 38 ∧
    capOf NodeType.video < capOf NodeType.ticker ∧
    (∀ (t : NodeType) (w1 w2 : ℝ), w1 ≤ w2 → radius ⟨t, w1⟩ ≤ radius ⟨t, w2⟩) ∧
    radius d ≤ capOf d.type ∧
    radius d ≤ baseOf d.type + scaleOf d.type * Real.sqrt d.weight := by
  refine ⟨rfl, rfl, rfl, rfl, rfl, rfl, rfl,
    by rw [show capOf NodeType.video = 34 from rfl, show capOf NodeType.ticker = 38 from rfl]
       norm_num, ?_,
    min_le_left _ _, min_le_right _ _⟩
  intro t w1 w2 h
  apply min_le_min le_rfl
  exact add_le_add_left
    (mul_le_mul_of_nonneg_left (Real.sqrt_le_sqrt h) (scaleOf_nonneg t)) _

end Yunews
